/-
Verification of the tile-grid coordination and label-merging pipeline of
the GRASS addon `i.segment.hierarchical` (src/i.segment.hierarchical.py).

Shallow-embedding conventions:
* Thresholds are parsed floats that the program only carries around (they are
  formatted into raster names, zipped, indexed); no arithmetic is ever done on
  them, so they are represented exactly as rationals.
* Raster map names are symbolic (`RName`): either a user supplied name or the
  result of formatting `outputs_prefix % threshold` preceded by a prefix.
* External `i.segment` invocations and raster writes are recorded as call
  records / events instead of performing I/O.
* Python 2 semantics: `/` on ints is floor division (`Nat.div` here).
-/
import Mathlib

namespace ISegHier

/-- Symbolic raster map name. `fmtP pre pat thr` is `pre + (pat % thr)`
(formatting a threshold into a pattern such as "seg__%.2f", preceded by a
prefix string); `opt s` is a user supplied name taken from an option. -/
inductive RName where
  | fmtP (pre pat : String) (thr : ℚ)
  | opt (s : String)
deriving DecidableEq

/-- The parameters of the sequential driver `segment` (src lines 233-246)
that are passed through unchanged to every `i.segment` call. -/
structure SegOpts where
  group : String
  method : String
  similarity : String
  memory : Nat
  iterations : Nat
deriving DecidableEq

/-- One recorded invocation of the external `i.segment` module. -/
structure SegCall where
  group : String
  method : String
  similarity : String
  memory : Nat
  iterations : Nat
  threshold : ℚ
  minsize : Int
  seeds : Option RName
  output : RName
deriving DecidableEq

/-- Embedding of `segment` (src lines 233-246): for each (threshold, minsize)
pair, in list order, invoke `i.segment` with `output = outputs_prefix % thr`
and the current seeds; afterwards the seeds become that output name
(seeds become the output entry of opts). The initial seeds are the `seeds`
option if it is non-empty, else none (Python truthiness on the option). -/
def segment (so : SegOpts) (pat : String) : Option RName → List (ℚ × Int) → List SegCall
  | _, [] => []
  | seeds, (thr, m) :: rest =>
    let out := RName.fmtP "" pat thr
    { group := so.group, method := so.method, similarity := so.similarity,
      memory := so.memory, iterations := so.iterations,
      threshold := thr, minsize := m, seeds := seeds, output := out } ::
      segment so pat (some out) rest

/-- Effective min-size list built by `__main__` (src lines 261-266): when the
`minsizes` option is set (a non-empty value, parsed to a non-empty list), a
length mismatch with the thresholds list is repaired by repeating the FIRST
entry once per threshold; when it is absent, every entry defaults to 1.
(`headD` models the Python `MINSIZES[0]`; the parsed list is never empty when
the option is present.) -/
def effMinsizes (minsizes : Option (List Int)) (nthr : Nat) : List Int :=
  match minsizes with
  | some ms => if ms.length ≠ nthr then List.replicate nthr (ms.headD 0) else ms
  | none => List.replicate nthr 1

/-- The label offsets computed by `rpatch_map` (src lines 176-186): `mrast`
starts at 0 once for the whole map; for every tile in row-major order it is
first advanced by `info.max + 1` and only then appended to `max_rasts`, so
tile i receives the cumulative sum up to AND INCLUDING its own `max + 1`.
Input: the per-tile max label values in row-major order (the row lists are
concatenated, since `mrast` persists across the row loop). -/
def rpatch_offsets : Int → List Int → List Int
  | _, [] => []
  | mrast, m :: rest =>
    let m2 := mrast + m + 1
    m2 :: rpatch_offsets m2 rest

/-- Modelled from the spec: the number of tiles along one axis produced by the
external Tile Grid Planner (`split_region_tiles`, pygrass, not in src):
"tile size and overlap determine the number of tiles along each axis by
dividing region extent by tile size (rounding to cover remainders)"
(spec section 4.1), i.e. a ceiling division. -/
def numTiles (extent size : Nat) : Nat := (extent + size - 1) / size

/-- Modelled from the spec: the non-overlapping core span of the k-th tile along
one axis, `[k*size, min ((k+1)*size) extent)`.  Per spec sections 3 and 4.1
the write extent of a tile is always its non-overlapping core span —
`overlap` extends only the read extent — so the core spans do not depend on
the overlap. -/
def spanOf (extent size k : Nat) : Nat × Nat :=
  (k * size, min ((k + 1) * size) extent)

/-- The core spans of all tiles along one axis, in grid order. -/
def coreSpans (extent size : Nat) : List (Nat × Nat) :=
  (List.range (numTiles extent size)).map (spanOf extent size)

/-- The interval `[a, b)` as a list, in ascending order. -/
def rangeSpan (a b : Nat) : List Nat :=
  (List.range (b - a)).map (fun i => a + i)

/-- Start/end indices of one tile inside the output raster, as returned by the
external `get_start_end_index` (pygrass) for the bboxes of one tile row. -/
structure Sei where
  r_start : Nat
  r_end : Nat
  c_start : Nat
  c_end : Nat
deriving DecidableEq

/-- Modelled from the spec: `get_start_end_index` (external pygrass helper,
not in src) applied to the bboxes of tile row `k` of a region with `R` rows
and `C` cols under tile size `w`×`h`: each tile contributes its
non-overlapping core row/column spans in output-raster coordinates. -/
def get_start_end_index (R C w h k : Nat) : List Sei :=
  (coreSpans C w).map (fun s =>
    { r_start := (spanOf R h k).1, r_end := (spanOf R h k).2,
      c_start := s.1, c_end := s.2 })

/-- The cells written (as slice assignments into the row buffer, i.e.
`rbuff[c_start:c_end] = ...`) by `rpatch_row` (src lines 152-164): the row
loop runs over the row range of `sei[0]`; for each row, every tile of the row
writes the columns `[c_start, c_end)` of its core span.  (Python indexes
`sei[0]`; a tile row always has at least one tile, modelled by `headD`.) -/
def rpatch_row_writes (sei : List Sei) : List (Nat × Nat) :=
  let s0 := sei.headD { r_start := 0, r_end := 0, c_start := 0, c_end := 0 }
  (rangeSpan s0.r_start s0.r_end).flatMap (fun row =>
    sei.flatMap (fun s => (rangeSpan s.c_start s.c_end).map (fun c => (row, c))))

/-- The output rows emitted (one `rast.put_row` each) by `rpatch_row`, in
emission order. -/
def rpatch_row_rows (sei : List Sei) : List Nat :=
  let s0 := sei.headD { r_start := 0, r_end := 0, c_start := 0, c_end := 0 }
  rangeSpan s0.r_start s0.r_end

/-- All cells written across a whole `rpatch_map` run (src lines 177-188):
tile rows are processed in ascending order, each patched by `rpatch_row`. -/
def rpatch_map_writes (R C w h : Nat) : List (Nat × Nat) :=
  (List.range (numTiles R h)).flatMap (fun k =>
    rpatch_row_writes (get_start_end_index R C w h k))

/-- The row indices emitted by `rpatch_map`, in emission order. -/
def rowsEmitted (R C w h : Nat) : List Nat :=
  (List.range (numTiles R h)).flatMap (fun k =>
    rpatch_row_rows (get_start_end_index R C w h k))

/-- How many times the cell at row `r`, column `c` occurs in a write list. -/
def cellCount (l : List (Nat × Nat)) (r c : Nat) : Nat :=
  l.countP (fun x => x.1 == r && x.2 == c)

/-- Configuration of `SegModule` (src lines 196-230): the module options
(after the normalisation done in `__main__`) plus the grid parameters.
`memory` is the value stashed by `SegModule.__init__`
(self.memory stashes the memory entry of kwargs, src lines 199-201).
`outPre` is the GridModule `out_prefix` (default the empty string). -/
structure SegCfg where
  group : String
  output : String
  outputsPat : String
  method : String
  similarity : String
  thresholds : List ℚ
  minsizes : List Int
  memory : Nat
  iterations : Nat
  seeds : Option String
  outPre : String
  regionRows : Nat
  regionCols : Nat
  width : Nat
  height : Nat
  overlap : Nat
  processes : Nat
deriving DecidableEq

/-- Observable actions of the tiled driver. -/
inductive Event where
  | workerTile (row col : Nat) (calls : List SegCall)
  | rpatch (out : RName) (threshold : ℚ)
  | segWhole (call : SegCall)
deriving DecidableEq

/-- Embedding of `SegModule.patch` (src lines 203-230): one `rpatch_map` over
the per-tile outputs of the LAST threshold (`inputs.thresholds[-1]`), writing
`out_prefix + (outputs_prefix % thresholds[-1])`, followed by exactly one
whole-region `i.segment` run with the fixed literal `iterations=3`,
`memory=self.memory`, `minsize=minsizes[-1]`, seeded by
`outputs_prefix % thresholds[-1]` and writing the `output` option.
(`thresholds` is a required option, hence never empty; `getLastD` models the
Python `[-1]` indexing.) -/
def SegModule.patchTrace (cfg : SegCfg) : List Event :=
  let thr := cfg.thresholds.getLastD 0
  [Event.rpatch (RName.fmtP cfg.outPre cfg.outputsPat thr) thr,
   Event.segWhole
     { group := cfg.group, method := cfg.method, similarity := cfg.similarity,
       memory := cfg.memory, iterations := 3,
       threshold := thr, minsize := cfg.minsizes.getLastD 1,
       seeds := some (RName.fmtP "" cfg.outputsPat thr),
       output := RName.opt cfg.output }]

/-- The tile grid positions, row-major. -/
def tileIndices (cfg : SegCfg) : List (Nat × Nat) :=
  (List.range (numTiles cfg.regionRows cfg.height)).flatMap (fun r =>
    (List.range (numTiles cfg.regionCols cfg.width)).map (fun c => (r, c)))

/-- Modelled from the external collaborator `GridModule.run` (pygrass, not in
src): split the region into tiles, run the module command once per tile under
the process pool — each tile re-enters `i.segment.hierarchical` WITHOUT
width/height options, i.e. the sequential `segment` driver restricted to the
tile, chaining all thresholds inside the tile — and after the barrier call
the (overridden) `patch` method exactly once. -/
def SegModule.runTrace (cfg : SegCfg) : List Event :=
  (tileIndices cfg).map (fun rc =>
    Event.workerTile rc.1 rc.2
      (segment { group := cfg.group, method := cfg.method,
                 similarity := cfg.similarity, memory := cfg.memory,
                 iterations := cfg.iterations }
        cfg.outputsPat (cfg.seeds.map RName.opt)
        (cfg.thresholds.zip cfg.minsizes)))
  ++ SegModule.patchTrace cfg

/-- The parsed options reaching `__main__` (src lines 249-258) after GRASS
option parsing (external). `width`/`height`/`processes` are `some` iff the
option was given a non-empty value (Python string truthiness: a supplied "0"
is truthy); `seeds` is `none` when absent or empty. `processes` is the
resolved worker count (the given value, else the cpu count). -/
structure MainOpts where
  group : String
  thresholds : List ℚ
  output : String
  outputsPat : String
  method : String
  similarity : String
  minsizes : Option (List Int)
  memory : Nat
  iterations : Nat
  seeds : Option String
  width : Option Nat
  height : Option Nat
  overlap : Nat
  processes : Nat
deriving DecidableEq

/-- The `ConfigurationError` of the spec (sections 4.1 and 7).  Declared so
that the presence or absence of such a failure in the program is statable. -/
inductive ConfigError where
  | geometry (message : String)
deriving DecidableEq

/-- What `__main__` decides to run. -/
inductive Plan where
  | tiled (cfg : SegCfg)
  | sequential (calls : List SegCall)
deriving DecidableEq

/-- The `SegModule` configuration built by `__main__` (src lines 268-279):
the memory option is divided by the process count BEFORE `SegModule` is
constructed (the memory entry of OPTS becomes MEMORY / PROCESSES, src line
272, Python 2
floor division), so the stashed `self.memory` already holds
`memory / processes`.  `out_prefix` is the GridModule default, empty. -/
def mkSegCfg (o : MainOpts) (rows cols w h : Nat) : SegCfg :=
  { group := o.group, output := o.output, outputsPat := o.outputsPat,
    method := o.method, similarity := o.similarity,
    thresholds := o.thresholds,
    minsizes := effMinsizes o.minsizes o.thresholds.length,
    memory := o.memory / o.processes,
    iterations := o.iterations, seeds := o.seeds, outPre := "",
    regionRows := rows, regionCols := cols,
    width := w, height := h, overlap := o.overlap, processes := o.processes }

/-- Embedding of the `__main__` dispatch (src lines 249-283): normalise the
options and then — with no validation of any kind — either construct the
tiled `SegModule` (iff width and height are both present) or run the
sequential `segment` driver; in the sequential branch the `output` option is
popped and DISCARDED and every pass writes to `outputs_prefix % threshold`. -/
def mainPlan (o : MainOpts) (rows cols : Nat) : Except ConfigError Plan :=
  match o.width, o.height with
  | some w, some h => Except.ok (Plan.tiled (mkSegCfg o rows cols w h))
  | _, _ =>
    Except.ok (Plan.sequential
      (segment { group := o.group, method := o.method,
                 similarity := o.similarity,
                 memory := o.memory / o.processes,
                 iterations := o.iterations }
        o.outputsPat (o.seeds.map RName.opt)
        (o.thresholds.zip (effMinsizes o.minsizes o.thresholds.length))))

/-- Whether a run plan was produced (no error was raised). -/
def planOk : Except ConfigError Plan → Bool
  | Except.ok _ => true
  | Except.error _ => false

/-- The sequential calls of a plan (empty for a tiled plan or an error). -/
def seqCallsOf : Except ConfigError Plan → List SegCall
  | Except.ok (Plan.sequential cs) => cs
  | _ => []

def isRpatchE : Event → Bool
  | Event.rpatch _ _ => true
  | _ => false

def isSegWholeE : Event → Bool
  | Event.segWhole _ => true
  | _ => false

/-- Is this a patching event for threshold `t`? -/
def isRpatchAt (e : Event) (t : ℚ) : Bool :=
  match e with
  | Event.rpatch _ thr => thr = t
  | _ => false

def rpatchThrOf : Event → ℚ
  | Event.rpatch _ thr => thr
  | _ => 0

def segMemOf : Event → Nat
  | Event.segWhole c => c.memory
  | _ => 0

/-- The name under which `rpatch_map` publishes the patched raster of the
last threshold when the GridModule `out_prefix` is empty. -/
def patchedNameOf (cfg : SegCfg) : RName :=
  RName.fmtP "" cfg.outputsPat (cfg.thresholds.getLastD 0)

/-- A concrete `segment` parameter set used in evaluations. -/
def soEx : SegOpts :=
  { group := "g", method := "region_growing", similarity := "euclidean",
    memory := 100, iterations := 20 }

/-- A concrete option set for a tiled run: a 100x100 region split into 50x50
tiles, two thresholds, memory 300 over 3 processes. -/
def o2 : MainOpts :=
  { group := "g", thresholds := [1, 2], output := "final",
    outputsPat := "seg__%.2f", method := "region_growing",
    similarity := "euclidean", minsizes := none, memory := 300,
    iterations := 20, seeds := none, width := some 50, height := some 50,
    overlap := 0, processes := 3 }

def cfg2 : SegCfg := mkSegCfg o2 100 100 50 50

def cfg3 : SegCfg := mkSegCfg o2 100 100 50 50

def cfg8 : SegCfg := mkSegCfg o2 100 100 50 50

/-- A concrete option set for a sequential (no width/height) run with
thresholds 0.02 and 0.05. -/
def o5 : MainOpts :=
  { o2 with width := none, height := none, thresholds := [2/100, 5/100] }

def seq5 : List SegCall := seqCallsOf (mainPlan o5 100 100)

/-- A concrete option set whose overlap (60) is not smaller than the tile
sizes (50x50). -/
def o7 : MainOpts := { o2 with overlap := 60 }

/- ------------------------------------------------------------------ -/
/- Helper lemmas.                                                      -/
/- ------------------------------------------------------------------ -/

theorem lt_next_mul (a b : Nat) (hb : 0 < b) : a < (a / b + 1) * b := by
  have h1 := Nat.div_add_mod a b
  have h3 : (a / b + 1) * b = b * (a / b) + b := by ring
  rw [h3]
  have h2 := Nat.mod_lt a hb
  omega

theorem span_cover_iff (extent size k x : Nat) (hs : 0 < size) :
    ((spanOf extent size k).1 ≤ x ∧ x < (spanOf extent size k).2) ↔
      (x < extent ∧ k = x / size) := by
  unfold spanOf
  constructor
  · rintro ⟨h1, h2⟩
    have hxe : x < extent := lt_of_lt_of_le h2 (min_le_right _ _)
    have hxk : x < (k + 1) * size := lt_of_lt_of_le h2 (min_le_left _ _)
    exact ⟨hxe, (Nat.div_eq_of_lt_le h1 hxk).symm⟩
  · rintro ⟨hxe, rfl⟩
    exact ⟨Nat.div_mul_le_self x size, lt_min (lt_next_mul x size hs) hxe⟩

theorem div_lt_numTiles (extent size x : Nat) (hs : 0 < size) (hx : x < extent) :
    x / size < numTiles extent size := by
  unfold numTiles
  have h1 : extent + size - 1 = (extent - 1) + size := by omega
  rw [h1, Nat.add_div_right _ hs]
  have h2 : x / size ≤ (extent - 1) / size := Nat.div_le_div_right (by omega)
  omega

theorem numTiles_pos (extent size : Nat) (hs : 0 < size) (he : 0 < extent) :
    0 < numTiles extent size := by
  have h0 : (0 : Nat) < size := hs
  have : (1 : Nat) ≤ (extent + size - 1) / size :=
    (Nat.le_div_iff_mul_le h0).mpr (by omega)
  simpa [numTiles] using this

theorem numTiles_mul (n h : Nat) (hh : 0 < h) : numTiles (n * h) h = n := by
  unfold numTiles
  have h1 : n * h + h - 1 = (h - 1) + n * h := by omega
  rw [h1, Nat.add_mul_div_right _ _ hh, Nat.div_eq_of_lt (by omega)]
  simp

theorem cellCount_flat {α : Type} (l : List α) (f : α → List (Nat × Nat))
    (r c : Nat) :
    cellCount (l.flatMap f) r c = (l.map (fun a => cellCount (f a) r c)).sum := by
  unfold cellCount
  induction l with
  | nil => rfl
  | cons x xs ih => rw [List.flatMap_cons, List.countP_append, List.map_cons,
      List.sum_cons, ih]

theorem cellCount_map_pairs (row r c : Nat) (l : List Nat) :
    cellCount (l.map (fun cc => (row, cc))) r c =
      if row = r then l.count c else 0 := by
  unfold cellCount
  rw [List.countP_map]
  by_cases hrow : row = r
  · subst hrow
    rw [if_pos rfl]
    have hp : ((fun x : Nat × Nat => x.1 == row && x.2 == c) ∘
        (fun cc => (row, cc))) = (fun cc => cc == c) := by
      funext cc
      simp [Function.comp]
    rw [hp]
    rfl
  · rw [if_neg hrow]
    have hp : ((fun x : Nat × Nat => x.1 == r && x.2 == c) ∘
        (fun cc => (row, cc))) = (fun _ => false) := by
      funext cc
      simp [Function.comp, hrow]
    rw [hp]
    simp

theorem sum_map_ite_range (g : Nat → Nat) (v k0 : Nat)
    (hg : ∀ k, g k = if k = k0 then v else 0) (n : Nat) :
    ((List.range n).map g).sum = if k0 < n then v else 0 := by
  induction n with
  | zero => simp
  | succ m ih =>
    rw [List.range_succ, List.map_append, List.sum_append, ih]
    simp only [List.map_cons, List.map_nil, List.sum_cons, List.sum_nil, hg m]
    split_ifs <;> omega

theorem sum_map_zero_range (g : Nat → Nat) (hg : ∀ k, g k = 0) (n : Nat) :
    ((List.range n).map g).sum = 0 := by
  induction n with
  | zero => rfl
  | succ m ih =>
    rw [List.range_succ, List.map_append, List.sum_append, ih]
    simp [hg]

theorem sum_map_indicator (l : List Nat) (hl : l.Nodup) (r v : Nat) :
    (l.map (fun x => if x = r then v else 0)).sum = if r ∈ l then v else 0 := by
  induction l with
  | nil => simp
  | cons a tl ih =>
    have ha : a ∉ tl := (List.nodup_cons.mp hl).1
    have ih2 := ih (List.nodup_cons.mp hl).2
    simp only [List.map_cons, List.sum_cons, ih2, List.mem_cons]
    by_cases har : a = r
    · subst har
      have hr : a ∉ tl := ha
      simp [hr]
    · have : ¬ (r = a) := fun hc => har hc.symm
      simp [har, this]

theorem mem_rangeSpan (a b x : Nat) : x ∈ rangeSpan a b ↔ a ≤ x ∧ x < b := by
  unfold rangeSpan
  simp only [List.mem_map, List.mem_range]
  constructor
  · rintro ⟨i, hi, rfl⟩; omega
  · rintro ⟨h1, h2⟩; exact ⟨x - a, by omega, by omega⟩

theorem nodup_rangeSpan (a b : Nat) : (rangeSpan a b).Nodup :=
  List.Nodup.map (fun x y hxy => by omega) (List.nodup_range _)

theorem count_rangeSpan (a b x : Nat) :
    (rangeSpan a b).count x = if a ≤ x ∧ x < b then 1 else 0 := by
  by_cases h : a ≤ x ∧ x < b
  · rw [if_pos h]
    exact List.count_eq_one_of_mem (nodup_rangeSpan a b) ((mem_rangeSpan a b x).mpr h)
  · rw [if_neg h]
    exact List.count_eq_zero_of_not_mem (fun hm => h ((mem_rangeSpan a b x).mp hm))

theorem segment_length (so : SegOpts) (pat : String) (s0 : Option RName)
    (pairs : List (ℚ × Int)) :
    (segment so pat s0 pairs).length = pairs.length := by
  induction pairs generalizing s0 with
  | nil => rfl
  | cons p rest ih => simp [segment, ih]

theorem flatMap_congr_list {α β : Type} (l : List α) (f g : α → List β)
    (hfg : ∀ a ∈ l, f a = g a) : l.flatMap f = l.flatMap g := by
  induction l with
  | nil => rfl
  | cons x xs ih =>
    rw [List.flatMap_cons, List.flatMap_cons, hfg x (by simp),
      ih (fun a ha => hfg a (by simp [ha]))]

theorem col_cover_sum (C w c : Nat) (hw : 0 < w) :
    ((coreSpans C w).map (fun s => (rangeSpan s.1 s.2).count c)).sum =
      if c < C then 1 else 0 := by
  unfold coreSpans
  rw [List.map_map]
  by_cases hc : c < C
  · rw [if_pos hc]
    have hg : ∀ k,
        ((fun s : Nat × Nat => (rangeSpan s.1 s.2).count c) ∘ spanOf C w) k =
          if k = c / w then 1 else 0 := by
      intro k
      rw [Function.comp_apply, count_rangeSpan]
      by_cases hk : k = c / w
      · rw [if_pos ((span_cover_iff C w k c hw).mpr ⟨hc, hk⟩), if_pos hk]
      · rw [if_neg (fun hcov => hk ((span_cover_iff C w k c hw).mp hcov).2),
          if_neg hk]
    rw [sum_map_ite_range _ 1 (c / w) hg (numTiles C w),
      if_pos (div_lt_numTiles C w c hw hc)]
  · rw [if_neg hc]
    apply sum_map_zero_range
    intro k
    rw [Function.comp_apply, count_rangeSpan]
    exact if_neg (fun hcov => hc ((span_cover_iff C w k c hw).mp hcov).1)

theorem gsei_head (R C w h k : Nat) (hw : 0 < w) (hC : 0 < C) :
    ((get_start_end_index R C w h k).headD
        { r_start := 0, r_end := 0, c_start := 0, c_end := 0 }).r_start =
      k * h ∧
    ((get_start_end_index R C w h k).headD
        { r_start := 0, r_end := 0, c_start := 0, c_end := 0 }).r_end =
      min ((k + 1) * h) R := by
  have hpos := numTiles_pos C w hw hC
  unfold get_start_end_index coreSpans
  obtain ⟨m, hm⟩ : ∃ m, numTiles C w = m + 1 := ⟨numTiles C w - 1, by omega⟩
  rw [hm, List.range_succ_eq_map]
  simp [spanOf]

theorem count_inner_row (R C w h k row r c : Nat) (hw : 0 < w) :
    cellCount ((get_start_end_index R C w h k).flatMap (fun s =>
        (rangeSpan s.c_start s.c_end).map (fun cc => (row, cc)))) r c =
      if row = r then (if c < C then 1 else 0) else 0 := by
  rw [cellCount_flat]
  unfold get_start_end_index
  rw [List.map_map]
  by_cases hrow : row = r
  · rw [if_pos hrow]
    have hmc : ∀ s : Nat × Nat,
        cellCount ((rangeSpan s.1 s.2).map (fun cc => (row, cc))) r c =
          (rangeSpan s.1 s.2).count c := by
      intro s
      rw [cellCount_map_pairs row r c (rangeSpan s.1 s.2), if_pos hrow]
    rw [List.map_congr_left (fun s _ => by
      simpa [Function.comp] using hmc s)]
    exact col_cover_sum C w c hw
  · rw [if_neg hrow]
    apply List.sum_eq_zero
    intro x hx
    simp only [List.mem_map, Function.comp_apply] at hx
    obtain ⟨s, _, rfl⟩ := hx
    exact (cellCount_map_pairs row r c _).trans (if_neg hrow)

theorem count_rpatch_row (R C w h k r c : Nat) (hw : 0 < w) (hC : 0 < C) :
    cellCount (rpatch_row_writes (get_start_end_index R C w h k)) r c =
      if k * h ≤ r ∧ r < min ((k + 1) * h) R ∧ c < C then 1 else 0 := by
  obtain ⟨h1, h2⟩ := gsei_head R C w h k hw hC
  simp only [rpatch_row_writes]
  rw [h1, h2, cellCount_flat,
    List.map_congr_left (fun row _ => count_inner_row R C w h k row r c hw),
    sum_map_indicator _ (nodup_rangeSpan _ _) r (if c < C then 1 else 0)]
  by_cases hr : k * h ≤ r ∧ r < min ((k + 1) * h) R
  · rw [if_pos ((mem_rangeSpan _ _ _).mpr hr)]
    by_cases hc : c < C
    · rw [if_pos hc, if_pos ⟨hr.1, hr.2, hc⟩]
    · rw [if_neg hc, if_neg (fun hcon => hc hcon.2.2)]
  · rw [if_neg (fun hm => hr ((mem_rangeSpan _ _ _).mp hm)),
      if_neg (fun hcon => hr ⟨hcon.1, hcon.2.1⟩)]

theorem count_rpatch_map (R C w h r c : Nat) (hw : 0 < w) (hh : 0 < h)
    (hC : 0 < C) :
    cellCount (rpatch_map_writes R C w h) r c =
      if r < R ∧ c < C then 1 else 0 := by
  unfold rpatch_map_writes
  rw [cellCount_flat]
  by_cases hrc : r < R ∧ c < C
  · have hg : ∀ k,
        cellCount (rpatch_row_writes (get_start_end_index R C w h k)) r c =
          if k = r / h then 1 else 0 := by
      intro k
      rw [count_rpatch_row R C w h k r c hw hC]
      by_cases hk : k = r / h
      · have hcov := (span_cover_iff R h k r hh).mpr ⟨hrc.1, hk⟩
        rw [if_pos ⟨hcov.1, hcov.2, hrc.2⟩, if_pos hk]
      · rw [if_neg (fun hcon =>
            hk ((span_cover_iff R h k r hh).mp ⟨hcon.1, hcon.2.1⟩).2),
          if_neg hk]
    rw [List.map_congr_left (fun k _ => hg k),
      sum_map_ite_range _ 1 (r / h) (fun k => rfl) (numTiles R h),
      if_pos (div_lt_numTiles R h r hh hrc.1), if_pos hrc]
  · have hg : ∀ k,
        cellCount (rpatch_row_writes (get_start_end_index R C w h k)) r c = 0 := by
      intro k
      rw [count_rpatch_row R C w h k r c hw hC]
      refine if_neg (fun hcon => hrc ?_)
      exact ⟨((span_cover_iff R h k r hh).mp ⟨hcon.1, hcon.2.1⟩).1, hcon.2.2⟩
    rw [List.map_congr_left (fun k _ => hg k),
      sum_map_zero_range _ (fun k => rfl) (numTiles R h), if_neg hrc]

theorem rpatch_row_rows_eq (R C w h k : Nat) (hw : 0 < w) (hC : 0 < C) :
    rpatch_row_rows (get_start_end_index R C w h k) =
      rangeSpan (k * h) (min ((k + 1) * h) R) := by
  obtain ⟨h1, h2⟩ := gsei_head R C w h k hw hC
  simp only [rpatch_row_rows]
  rw [h1, h2]

theorem rowChunks_eq_range (h : Nat) (hh : 0 < h) :
    ∀ n R, numTiles R h = n →
      ((List.range n).flatMap
        (fun k => rangeSpan (k * h) (min ((k + 1) * h) R))) = List.range R := by
  intro n
  induction n with
  | zero =>
    intro R hn
    have hR : R = 0 := by
      by_contra hR0
      have := numTiles_pos R h hh (by omega)
      omega
    subst hR
    rfl
  | succ m ih =>
    intro R hn
    have e1 : (m + 2) * h = m * h + 2 * h := by ring
    have e2 : (m + 1) * h = m * h + h := by ring
    have hub : R ≤ (m + 1) * h := by
      have hd : (R + h - 1) / h < m + 2 := by
        have : numTiles R h < m + 2 := by omega
        simpa [numTiles] using this
      have := (Nat.div_lt_iff_lt_mul hh).mp hd
      omega
    have hlb : m * h < R := by
      have hd : m + 1 ≤ (R + h - 1) / h := by
        have : m + 1 ≤ numTiles R h := by omega
        simpa [numTiles] using this
      have := (Nat.le_div_iff_mul_le hh).mp hd
      omega
    rw [List.range_succ, List.flatMap_append]
    have hlast : ([m] : List Nat).flatMap
        (fun k => rangeSpan (k * h) (min ((k + 1) * h) R)) =
          rangeSpan (m * h) R := by
      have : min ((m + 1) * h) R = R := min_eq_right hub
      simp [this]
    have hcongr : (List.range m).flatMap
        (fun k => rangeSpan (k * h) (min ((k + 1) * h) R)) =
          (List.range m).flatMap
            (fun k => rangeSpan (k * h) (min ((k + 1) * h) (m * h))) := by
      apply flatMap_congr_list
      intro k hk
      rw [List.mem_range] at hk
      have hkm : (k + 1) * h ≤ m * h := Nat.mul_le_mul_right h (by omega)
      rw [min_eq_left (le_trans hkm (le_of_lt hlb)), min_eq_left hkm]
    rw [hlast, hcongr, ih (m * h) (numTiles_mul m h hh)]
    have hsum : List.range R =
        List.range (m * h) ++
          (List.range (R - m * h)).map (fun i => m * h + i) := by
      conv_lhs => rw [show R = m * h + (R - m * h) from by omega]
      exact List.range_add _ _
    rw [hsum]
    rfl

theorem rowsEmitted_eq_range (R C w h : Nat) (hw : 0 < w) (hh : 0 < h)
    (hC : 0 < C) : rowsEmitted R C w h = List.range R := by
  unfold rowsEmitted
  rw [flatMap_congr_list _ _ _
    (fun k _ => rpatch_row_rows_eq R C w h k hw hC)]
  exact rowChunks_eq_range h hh (numTiles R h) R rfl

/- ------------------------------------------------------------------ -/
/- Claim theorems.                                                     -/
/- ------------------------------------------------------------------ -/

/-- C1 (code bug): the offsets actually computed by `rpatch_map` for tile max
labels [9, 4, 14, 2] are [10, 15, 30, 33] — `mrast` is advanced by `max + 1`
BEFORE being appended — not the [0, 10, 15, 30] that the claim (and the
collision-freedom invariant) requires.  In particular the offset of tile 0
is not 0, and the shifted label 9 + 10 = 19 of tile 0 collides with the
shifted
label 4 + 15 = 19, defeating the stated purpose of the offsets. -/
theorem c1_offsets_eval :
    rpatch_offsets 0 [9, 4, 14, 2] = [10, 15, 30, 33] ∧
    rpatch_offsets 0 [9, 4, 14, 2] ≠ [0, 10, 15, 30] ∧
    (9 : Int) + 10 = 4 + 15 := by decide

/-- C6: the effective min-size list always has the length of the thresholds;
a `minsizes` option absent gives all-ones, and a single given value is
broadcast to every threshold. -/
theorem c6_minsizes_broadcast (nthr : Nat) (m : Int) :
    effMinsizes none nthr = List.replicate nthr 1 ∧
    effMinsizes (some [m]) nthr = List.replicate nthr m ∧
    ∀ ms : List Int, ms ≠ [] → (effMinsizes (some ms) nthr).length = nthr := by
  refine ⟨rfl, ?_, ?_⟩
  · rcases eq_or_ne nthr 1 with h1 | h1
    · subst h1; simp [effMinsizes]
    · have hne : ([m] : List Int).length ≠ nthr := by simpa using Ne.symm h1
      simp only [effMinsizes]
      rw [if_pos hne]
      rfl
  · intro ms _
    unfold effMinsizes
    by_cases hl : ms.length ≠ nthr
    · simp [hl]
    · push_neg at hl
      simp [hl]

/-- C6 witness: thresholds of length 3 with minsizes [5] give [5, 5, 5];
thresholds of length 2 with no minsizes give [1, 1]; an explicit list keeps
the length of the thresholds. -/
theorem c6_minsizes_broadcast_witness :
    effMinsizes (some [5]) 3 = [5, 5, 5] ∧
    effMinsizes none 2 = [1, 1] ∧
    (effMinsizes (some [7, 8]) 3).length = 3 := by
  refine ⟨?_, ?_, (c6_minsizes_broadcast 3 5).2.2 [7, 8] (by decide)⟩
  · exact ((c6_minsizes_broadcast 3 (5 : Int)).2.1).trans (by decide)
  · exact ((c6_minsizes_broadcast 2 (1 : Int)).1).trans (by decide)

/-- C10: a multi-entry `minsizes` whose length differs from that of the
raises no error: the result is the first entry repeated once per threshold,
all other entries silently discarded. -/
theorem c10_minsizes_mismatch (nthr : Nat) (m m2 : Int) (rest : List Int)
    (hlen : (m :: m2 :: rest).length ≠ nthr) :
    effMinsizes (some (m :: m2 :: rest)) nthr = List.replicate nthr m := by
  simp only [effMinsizes]
  rw [if_pos hlen]
  rfl

/-- C10 witness: two thresholds with minsizes [3, 4, 5] give [3, 3]. -/
theorem c10_minsizes_mismatch_witness :
    effMinsizes (some [3, 4, 5]) 2 = [3, 3] :=
  (c10_minsizes_mismatch 2 3 4 [5] (by decide)).trans (by decide)

/-- C7 (amended): the program performs no tile-geometry validation at all —
for every option set, `__main__` produces a run plan and never raises a
`ConfigurationError`, even when width or height is 0 or the overlap is at
least min(width, height); invalid geometry is simply forwarded to the
external grid module. -/
theorem c7_no_validation (o : MainOpts) (rows cols : Nat) :
    planOk (mainPlan o rows cols) = true := by
  unfold mainPlan
  rcases o.width with _ | w <;> rcases o.height with _ | h <;> rfl

/-- C7 counterexample: with tile size 50x50 and overlap 60 (≥ min(50, 50))
the program does NOT fail with a `ConfigurationError`; it happily builds the
tiled plan. -/
theorem c7_counterexample :
    planOk (mainPlan o7 100 100) = true ∧ o7.width = some 50 ∧
    o7.height = some 50 ∧ min 50 50 ≤ o7.overlap := by decide

/-- C3 (amended): the whole-region consolidation `i.segment` call is invoked
with the per-worker budget `memory / processes` — the memory option is
divided by the process count in `__main__` before `SegModule` stashes it —
not with the full un-divided `memory` option value. -/
theorem c3_consolidation_memory_divided (o : MainOpts) (rows cols w h : Nat)
    (e : Event) (he : e ∈ SegModule.patchTrace (mkSegCfg o rows cols w h))
    (hw : isSegWholeE e = true) :
    segMemOf e = o.memory / o.processes := by
  simp only [SegModule.patchTrace, List.mem_cons, List.mem_singleton,
    List.not_mem_nil, or_false] at he
  rcases he with rfl | rfl
  · simp [isSegWholeE] at hw
  · rfl

/-- C3 witness: the consolidation event of the concrete run (memory 300,
3 processes) carries memory 300 / 3. -/
theorem c3_consolidation_memory_divided_witness :
    segMemOf (Event.segWhole
      { group := "g", method := "region_growing", similarity := "euclidean",
        memory := 100, iterations := 3, threshold := 2, minsize := 1,
        seeds := some (RName.fmtP "" "seg__%.2f" 2),
        output := RName.opt "final" }) = 300 / 3 :=
  c3_consolidation_memory_divided o2 100 100 50 50 _ (by decide) (by decide)

/-- C3 counterexample: with `memory=300, processes=3` the single whole-region
consolidation call is made with memory 100 = 300 / 3, not the full 300. -/
theorem c3_counterexample :
    ((SegModule.patchTrace cfg3).filter isSegWholeE).map segMemOf = [100] ∧
    o2.memory = 300 ∧ o2.processes = 3 ∧ (100 : Nat) ≠ 300 ∧
    cfg3 = mkSegCfg o2 100 100 50 50 := by decide

/-- C9: the sequential fallback driver invokes `i.segment` once per
(threshold, minsize) pair in list order; call i writes
`outputs_prefix % threshold_i`; call 0 is seeded by the externally supplied
seeds (none when absent) and every later call is seeded by the previous
output raster of the previous call. -/
theorem c9_sequential_chain (so : SegOpts) (pat : String) (s0 : Option RName)
    (pairs : List (ℚ × Int)) (i : Nat) :
    (segment so pat s0 pairs).length = pairs.length ∧
    (segment so pat s0 pairs)[i]? = (pairs[i]?).map (fun pr =>
      { group := so.group, method := so.method, similarity := so.similarity,
        memory := so.memory, iterations := so.iterations,
        threshold := pr.1, minsize := pr.2,
        seeds := match i with
          | 0 => s0
          | j + 1 => (pairs[j]?).map (fun q => RName.fmtP "" pat q.1),
        output := RName.fmtP "" pat pr.1 }) := by
  refine ⟨segment_length so pat s0 pairs, ?_⟩
  induction pairs generalizing s0 i with
  | nil => simp [segment]
  | cons p rest ih =>
    cases i with
    | zero => simp [segment]
    | succ j =>
      have h2 := ih (some (RName.fmtP "" pat p.1)) j
      cases j with
      | zero => simpa [segment] using h2
      | succ j2 => simpa [segment] using h2

/-- C5 (code bug): in the sequential fallback the required `output` option is
popped and discarded — the rasters written are exactly the
`outputs_prefix % threshold` names, and the raster named by `output`
("final") is never written. -/
theorem c5_output_dropped_eval :
    o5.output = "final" ∧ o5.width = none ∧ o5.height = none ∧
    seq5.map (fun c => c.output) =
      [RName.fmtP "" "seg__%.2f" (2/100), RName.fmtP "" "seg__%.2f" (5/100)] ∧
    RName.opt "final" ∉ seq5.map (fun c => c.output) := by
  have h : seq5.map (fun c => c.output) =
      [RName.fmtP "" "seg__%.2f" (2/100), RName.fmtP "" "seg__%.2f" (5/100)] := rfl
  refine ⟨rfl, rfl, rfl, h, ?_⟩
  rw [h]
  simp

/-- C4: for every valid tile grid (positive tile width and height, non-empty
column extent), the Raster Patcher writes each cell of the Region-sized
output exactly once — the number of slice writes hitting cell (r, c) is 1
for every in-region cell and 0 for any out-of-region cell (so the
non-overlapping core spans of the contributing tiles partition each row with no
cell written twice and none unwritten) — and the output rows are emitted
exactly once each, in ascending row order. -/
theorem c4_patch_exactly_once (R C w h r c : Nat) (hw : 0 < w) (hh : 0 < h)
    (hC : 0 < C) :
    cellCount (rpatch_map_writes R C w h) r c =
      (if r < R ∧ c < C then 1 else 0) ∧
    rowsEmitted R C w h = List.range R :=
  ⟨count_rpatch_map R C w h r c hw hh hC, rowsEmitted_eq_range R C w h hw hh hC⟩

/-- C4 witness: a 4x4 region under 3x2 tiles — the in-region cell (1, 3) is
written once, the out-of-region cell (5, 1) never, and the rows come out as
0, 1, 2, 3. -/
theorem c4_patch_exactly_once_witness :
    cellCount (rpatch_map_writes 4 4 3 2) 1 3 = 1 ∧
    cellCount (rpatch_map_writes 4 4 3 2) 5 1 = 0 ∧
    rowsEmitted 4 4 3 2 = List.range 4 := by
  have h1 := c4_patch_exactly_once 4 4 3 2 1 3 (by decide) (by decide) (by decide)
  have h2 := c4_patch_exactly_once 4 4 3 2 5 1 (by decide) (by decide) (by decide)
  exact ⟨by rw [h1.1]; decide, by rw [h2.1]; decide, h1.2⟩

/-- C2 counterexample: on a concrete tiled run with thresholds [1, 2] the
whole driver trace contains exactly ONE patching event, and none at all for
the first threshold (index 0, value 1) — so there is no per-threshold
`tiled_patch[i]`, refuting the claim that patching and consolidation happen
once per threshold. -/
theorem c2_counterexample :
    (SegModule.runTrace cfg2).countP isRpatchE = 1 ∧
    (SegModule.runTrace cfg2).countP (fun e => isRpatchAt e 1) = 0 ∧
    (SegModule.runTrace cfg2).countP isSegWholeE = 1 ∧
    cfg2.thresholds = [1, 2] := by decide

/-- C2 (amended): per run, the tiled driver performs exactly one patching
step and exactly one whole-region consolidation, both pinned to the LAST
threshold (`thresholds[-1]`); the per-threshold seed chaining happens inside
each tile worker, which re-runs the sequential driver over all thresholds
within its tile. -/
theorem c2_patch_once_per_run (cfg : SegCfg) :
    (SegModule.runTrace cfg).countP isRpatchE = 1 ∧
    (SegModule.runTrace cfg).countP isSegWholeE = 1 ∧
    ∀ e ∈ SegModule.runTrace cfg, isRpatchE e = true →
      rpatchThrOf e = cfg.thresholds.getLastD 0 := by
  have hw1 : ((tileIndices cfg).map (fun rc =>
      Event.workerTile rc.1 rc.2
        (segment { group := cfg.group, method := cfg.method,
                   similarity := cfg.similarity, memory := cfg.memory,
                   iterations := cfg.iterations }
          cfg.outputsPat (cfg.seeds.map RName.opt)
          (cfg.thresholds.zip cfg.minsizes)))).countP isRpatchE = 0 := by
    rw [List.countP_eq_zero]
    intro e he
    simp only [List.mem_map] at he
    obtain ⟨rc, _, rfl⟩ := he
    simp [isRpatchE]
  have hw2 : ((tileIndices cfg).map (fun rc =>
      Event.workerTile rc.1 rc.2
        (segment { group := cfg.group, method := cfg.method,
                   similarity := cfg.similarity, memory := cfg.memory,
                   iterations := cfg.iterations }
          cfg.outputsPat (cfg.seeds.map RName.opt)
          (cfg.thresholds.zip cfg.minsizes)))).countP isSegWholeE = 0 := by
    rw [List.countP_eq_zero]
    intro e he
    simp only [List.mem_map] at he
    obtain ⟨rc, _, rfl⟩ := he
    simp [isSegWholeE]
  refine ⟨?_, ?_, ?_⟩
  · rw [SegModule.runTrace, List.countP_append, hw1]
    rfl
  · rw [SegModule.runTrace, List.countP_append, hw2]
    rfl
  · intro e he hp
    rw [SegModule.runTrace, List.mem_append] at he
    rcases he with he | he
    · exfalso
      simp only [List.mem_map] at he
      obtain ⟨rc, _, rfl⟩ := he
      simp [isRpatchE] at hp
    · simp only [SegModule.patchTrace, List.mem_cons, List.mem_singleton,
        List.not_mem_nil, or_false] at he
      rcases he with rfl | rfl
      · rfl
      · simp [isRpatchE] at hp

/-- C2 witness: the amended theorem applied to the concrete run `cfg2`. -/
theorem c2_patch_once_per_run_witness :
    (SegModule.runTrace cfg2).countP isRpatchE = 1 ∧
    rpatchThrOf (Event.rpatch (RName.fmtP "" "seg__%.2f" 2) 2) = (2 : ℚ) := by
  refine ⟨(c2_patch_once_per_run cfg2).1, ?_⟩
  have h := (c2_patch_once_per_run cfg2).2.2
    (Event.rpatch (RName.fmtP "" "seg__%.2f" 2) 2) (by decide) (by decide)
  simpa using h

/-- C8: the consolidation consists of exactly one whole-region `i.segment`
invocation, seeded by the raster that `rpatch_map` just published for the
last threshold, with the fixed literal iteration cap 3 — independent of the
configurable `iterations` option (changing that option leaves the patch
trace unchanged). -/
theorem c8_consolidation (cfg : SegCfg) (hpre : cfg.outPre = "") :
    (SegModule.patchTrace cfg).filter isSegWholeE =
      [Event.segWhole
        { group := cfg.group, method := cfg.method,
          similarity := cfg.similarity, memory := cfg.memory, iterations := 3,
          threshold := cfg.thresholds.getLastD 0,
          minsize := cfg.minsizes.getLastD 1,
          seeds := some (patchedNameOf cfg),
          output := RName.opt cfg.output }] ∧
    (SegModule.patchTrace cfg).filter isRpatchE =
      [Event.rpatch (patchedNameOf cfg) (cfg.thresholds.getLastD 0)] ∧
    ∀ n : Nat, SegModule.patchTrace { cfg with iterations := n } =
      SegModule.patchTrace cfg := by
  refine ⟨?_, ?_, fun n => rfl⟩
  · simp [SegModule.patchTrace, isSegWholeE, patchedNameOf]
  · simp [SegModule.patchTrace, isRpatchE, patchedNameOf, hpre]

/-- C8 witness: the consolidation shape of the concrete run `cfg8`, and the
independence of the patch trace from the `iterations` option there. -/
theorem c8_consolidation_witness :
    SegModule.patchTrace { cfg8 with iterations := 5 } =
      SegModule.patchTrace cfg8 ∧
    (SegModule.patchTrace cfg8).filter isRpatchE =
      [Event.rpatch (RName.fmtP "" "seg__%.2f" 2) 2] := by
  have h := c8_consolidation cfg8 rfl
  refine ⟨h.2.2 5, ?_⟩
  rw [h.2.1]
  rfl

end ISegHier
